import Mathlib

/-!
Verification of the proxy-bundle analysis and cleaning engine
(`review_optimize.py`, class `ProxyBundle`).

The XML documents handled by `xml.etree.ElementTree` are embedded as rose
trees (`XmlElem`); the on-disk layout of one extracted bundle is embedded as
`BundleTree`, whose fields are the directory listings the Python code reads
(`policies/*.xml` stems with their parse results, the endpoint documents of
`proxies/` and `targets/`, the root-level `*.xml` documents, any other XML
documents of the tree, and the `resources/<type>/` file listings).  A parse
failure of `ET.parse` is embedded as a `none` document.
-/

namespace ReviewOptimize

/-- `str.strip()`: drop leading and trailing whitespace.  Implemented over the
character list so that it evaluates inside the kernel. -/
def pyStrip (s : String) : String :=
  (((s.toList.dropWhile Char.isWhitespace).reverse.dropWhile Char.isWhitespace).reverse).asString

/-- `str.lower()`, over the character list. -/
def pyLower (s : String) : String :=
  (s.toList.map Char.toLower).asString

/-- `str.split('://')`: greedy left-to-right split on the literal separator,
exactly as Python's `str.split` with a non-empty separator behaves. -/
def splitUrl (s : String) : List String :=
  go s.toList []
where
  go : List Char → List Char → List String
  | [], acc => [acc.reverse.asString]
  | ':' :: '/' :: '/' :: rest, acc => acc.reverse.asString :: go rest []
  | c :: rest, acc => go rest (c :: acc)

/-- Kernel-evaluable string comparison: code-point lexicographic order on the
character lists, the order Python's `sorted` uses on these names. -/
def strLeb (a b : String) : Bool :=
  decide (a.toList ≤ b.toList)

/-- The comparison as a relation, for use with `List.insertionSort`. -/
def strLeR (a b : String) : Prop := strLeb a b = true

instance : DecidableRel strLeR := fun a b => instDecidableEqBool (strLeb a b) true

/-- An XML element as produced by `xml.etree.ElementTree`: tag, attributes,
text (None or a string), and the ordered list of child elements. -/
inductive XmlElem : Type where
| mk (tag : String) (attrs : List (String × String)) (text : Option String)
    (children : List XmlElem) : XmlElem

def XmlElem.tag : XmlElem → String
| .mk t _ _ _ => t

def XmlElem.attrs : XmlElem → List (String × String)
| .mk _ a _ _ => a

def XmlElem.text : XmlElem → Option String
| .mk _ _ x _ => x

def XmlElem.children : XmlElem → List XmlElem
| .mk _ _ _ cs => cs

/-- `element.find(tag)`: first direct child with the given tag. -/
def XmlElem.findChild (e : XmlElem) (t : String) : Option XmlElem :=
  e.children.find? (fun c => c.tag == t)

/-- `element.findall(tag)`: all direct children with the given tag. -/
def XmlElem.childrenTagged (e : XmlElem) (t : String) : List XmlElem :=
  e.children.filter (fun c => c.tag == t)

/-- `element.get(key)`: attribute lookup. -/
def XmlElem.attrVal (e : XmlElem) (k : String) : Option String :=
  (e.attrs.find? (fun p => p.1 == k)).map (fun p => p.2)

mutual

/-- All proper descendants of an element, in document (pre-)order: this is
what `root.findall(".//X")` iterates over before filtering by tag. -/
def descendants : XmlElem → List XmlElem
| .mk _ _ _ cs => descList cs

/-- Descendant list of a forest, in document order. -/
def descList : List XmlElem → List XmlElem
| [] => []
| c :: cs => c :: (descendants c ++ descList cs)

end

/-- The element together with its proper descendants. -/
def allElems (e : XmlElem) : List XmlElem := e :: descendants e

/-- `root.findall(".//" ++ t)`: descendants with the given tag, document order. -/
def findallDesc (e : XmlElem) (t : String) : List XmlElem :=
  (descendants e).filter (fun c => c.tag == t)

/-- Text of the `Name` child of a step, as `step.find("Name")` followed by
`.text` reads it. -/
def nameTextOf (step : XmlElem) : Option String :=
  (step.findChild "Name").bind XmlElem.text

/-- One extracted bundle directory (and equally the cleaned copy of it).
Document-bearing fields pair a file identifier with the result of
`ET.parse` (`none` on `ParseError`); `policies` is keyed by the stem of the
`policies/*.xml` file, `resources` maps a resource-type subdirectory name to
its file listing. -/
structure BundleTree where
  policies : List (String × Option XmlElem)
  proxyEndpoints : List (String × Option XmlElem)
  targetEndpoints : List (String × Option XmlElem)
  rootDocs : List (String × Option XmlElem)
  otherDocs : List (String × Option XmlElem)
  resources : List (String × List String)

/-- `all_policies`: the stems of the files in `policies/` matching `*.xml`
(`{p.stem for p in self.policies_dir.glob('*.xml')}`); only filenames, no
parsing. -/
def all_policies (b : BundleTree) : List String :=
  b.policies.map Prod.fst

/-- Name contributed to the referenced set by one `Step` element:
`name = step.find('Name'); if name is not None and name.text:
referenced.add(name.text.strip())`. -/
def stepRefName (step : XmlElem) : Option String :=
  match nameTextOf step with
  | none => none
  | some t => if t == "" then none else some (pyStrip t)

/-- Referenced names contributed by one endpoint document
(`for step in ET.parse(xml_file).getroot().findall('.//Step')`); a document
that failed to parse contributes nothing. -/
def docRefs : Option XmlElem → List String
| none => []
| some root => (findallDesc root "Step").filterMap stepRefName

/-- `_get_referenced_policy_names` over an explicit list of endpoint
documents. -/
def referenced_from (docs : List (String × Option XmlElem)) : List String :=
  docs.foldr (fun p acc => docRefs p.2 ++ acc) []

/-- `referenced_policies`: union of step names over the documents of both
endpoint directories (`proxies/` before `targets/`). -/
def referenced_policies (b : BundleTree) : List String :=
  referenced_from (b.proxyEndpoints ++ b.targetEndpoints)

/-- `sorted(list(all_policies - referenced_policies))` over an explicit
endpoint-document list: the set difference, returned sorted. -/
def unattached_from (stems : List String) (docs : List (String × Option XmlElem)) :
    List String :=
  List.insertionSort strLeR
    (stems.dedup.filter (fun s => decide (s ∉ referenced_from docs)))

/-- `unattached_policies`: `sorted(list(self.all_policies - self.referenced_policies))`. -/
def unattached_policies (b : BundleTree) : List String :=
  unattached_from (all_policies b) (b.proxyEndpoints ++ b.targetEndpoints)

/-- `_get_javascript_policy_names`: stems of the policy files whose document
parses and whose root tag lowercases to `javascript`; a `ParseError` is
skipped with `continue`. -/
def javascript_policies (b : BundleTree) : List String :=
  b.policies.filterMap (fun p =>
    match p.2 with
    | some root => if pyLower root.tag == "javascript" then some p.1 else none
    | none => none)

/-- Declared kind of a unit: the lowercased root tag of its parsed document,
undeterminable (`none`) when the file is absent or fails to parse. -/
def unit_kind (b : BundleTree) (stem : String) : Option String :=
  match b.policies.lookup stem with
  | some (some root) => some (pyLower root.tag)
  | _ => none

/-- A detected sequence record: `{"file": ..., "location": ..., "sequence": ...}`. -/
structure SeqRecord where
  file : String
  location : String
  sequence : List String

/-- `is_valid = name is not None and name.text and name.text.strip() in
js_names and cond is None` for one `Step` of a path. -/
def is_valid_step (js : List String) (step : XmlElem) : Bool :=
  match nameTextOf step with
  | none => false
  | some t => !(t == "") && decide (pyStrip t ∈ js) && (step.findChild "Condition").isNone

/-- The value appended to the running sequence for a valid step:
`name.text.strip()`. -/
def stepSeqName (step : XmlElem) : String :=
  pyStrip ((nameTextOf step).getD "")

/-- Emission of a pending run: `if len(seq) > 1: sequences.append(...)`. -/
def flushSeq (file loc : String) (seq : List String) : List SeqRecord :=
  if 1 < seq.length then [⟨file, loc, seq⟩] else []

/-- The per-path loop of `find_sequential_js_steps`: walk the direct `Step`
children in order, extending the run at a valid step, otherwise emitting the
run when it has length `> 1` and resetting (the breaking step is discarded);
at path end the pending run is flushed the same way. -/
def walkSteps (js : List String) (file loc : String) :
    List XmlElem → List String → List SeqRecord
| [], seq => flushSeq file loc seq
| s :: rest, seq =>
  if is_valid_step js s then walkSteps js file loc rest (seq ++ [stepSeqName s])
  else flushSeq file loc seq ++ walkSteps js file loc rest []

/-- Location label of a container: `f"Flow '{container.get('name')}'" if
container.tag == 'Flow' and container.get('name') else container.tag`. -/
def containerLoc (c : XmlElem) : String :=
  if c.tag == "Flow" && !((c.attrVal "name").getD "" == "") then
    "Flow \x27" ++ ((c.attrVal "name").getD "") ++ "\x27"
  else c.tag

/-- Sequence records contributed by one container: the `Request` then
`Response` paths, when present, walked step by step. -/
def containerRecords (js : List String) (file : String) (c : XmlElem) :
    List SeqRecord :=
  ([c.findChild "Request", c.findChild "Response"].filterMap id).foldr
    (fun p acc =>
      walkSteps js file (containerLoc c ++ "/" ++ p.tag) (p.childrenTagged "Step") [] ++ acc)
    []

/-- Sequence records contributed by one endpoint document: containers are
`root.findall('.//PreFlow') + root.findall('.//PostFlow') +
root.findall('.//Flow')`; a document that fails to parse yields nothing. -/
def docRecords (js : List String) (p : String × Option XmlElem) : List SeqRecord :=
  match p.2 with
  | none => []
  | some root =>
    (findallMany root).foldr (fun c acc => containerRecords js p.1 c ++ acc) []
where
  findallMany (root : XmlElem) : List XmlElem :=
    findallDesc root "PreFlow" ++ findallDesc root "PostFlow" ++ findallDesc root "Flow"

/-- `find_sequential_js_steps`: proxy-side endpoint files before target-side
ones, each walked container by container and path by path. -/
def find_sequential_js_steps (b : BundleTree) : List SeqRecord :=
  (b.proxyEndpoints ++ b.targetEndpoints).foldr
    (fun p acc => docRecords (javascript_policies b) p ++ acc) []

/-- `_get_resource_url_from_policy_file` against the current state of the
copy: `None` when the policy file is absent or unparsable or the root tag
(lowercased) is not `javascript`/`javacallout` or there is no `ResourceURL`
child; otherwise the child's text. -/
def resource_url (t : BundleTree) (stem : String) : Option String :=
  match t.policies.lookup stem with
  | none => none
  | some none => none
  | some (some root) =>
    if pyLower root.tag == "javascript" || pyLower root.tag == "javacallout" then
      match root.findChild "ResourceURL" with
      | some e => e.text
      | none => none
    else none

/-- `policy_file.unlink()`: remove the unit file from the copy's `policies/`
directory. -/
def deletePolicyFile (stem : String) (t : BundleTree) : BundleTree :=
  { t with policies := t.policies.filter (fun p => !(p.1 == stem)) }

/-- `res_file = resources/<scheme>/<filename>; if res_file.exists():
res_file.unlink()`. -/
def removeResFile (scheme filename : String) (res : List (String × List String)) :
    List (String × List String) :=
  res.map (fun p =>
    if p.1 == scheme then (p.1, p.2.filter (fun n => !(n == filename))) else p)

/-- One iteration of the unattached-removal loop of `clean_and_save`: read the
resource link from the copy, delete the unit file, and when the link is
truthy, unpack `resource_url.split('://')` into exactly two parts — any other
arity raises `ValueError`, embedded as `Except.error`. -/
def processUnit (t : BundleTree) (stem : String) : Except String BundleTree :=
  match resource_url t stem with
  | none => Except.ok (deletePolicyFile stem t)
  | some u =>
    if u == "" then Except.ok (deletePolicyFile stem t)
    else
      match splitUrl u with
      | [scheme, filename] =>
        Except.ok
          { deletePolicyFile stem t with
            resources := removeResFile scheme filename t.resources }
      | _ => Except.error u

/-- Removal condition of `_remove_orphaned_steps` for one direct child of a
parent: the child is a `Step` whose `Name` text is truthy and whose stripped
name is not among the remaining unit stems. -/
def removable (r : List String) (c : XmlElem) : Bool :=
  c.tag == "Step" &&
    (match nameTextOf c with
     | none => false
     | some t => !(t == "") && !(decide (pyStrip t ∈ r)))

mutual

/-- `_remove_orphaned_steps` on one document tree: every element that is a
parent of `Step` children has its removable `Step` children removed, at every
depth; the document root itself is never removed. -/
def stripElem (r : List String) : XmlElem → XmlElem
| .mk t a x cs => .mk t a x (stripList r cs)

/-- Child-list transformation of `stripElem`. -/
def stripList (r : List String) : List XmlElem → List XmlElem
| [] => []
| c :: cs => if removable r c then stripList r cs else stripElem r c :: stripList r cs

end

/-- Per-file action of the step-stripping phase; an unparsable document is
skipped (`except Exception: pass`). -/
def stripDocPair (r : List String) (p : String × Option XmlElem) :
    String × Option XmlElem :=
  (p.1, p.2.map (stripElem r))

/-- The step-stripping phase over the whole copy (`rglob('*.xml')`): the
remaining-unit set is computed once from the copy's `policies/` directory,
then every XML document of the tree is stripped. -/
def stripPhase (t : BundleTree) : BundleTree :=
  { t with
    policies := t.policies.map (stripDocPair (all_policies t))
    proxyEndpoints := t.proxyEndpoints.map (stripDocPair (all_policies t))
    targetEndpoints := t.targetEndpoints.map (stripDocPair (all_policies t))
    rootDocs := t.rootDocs.map (stripDocPair (all_policies t))
    otherDocs := t.otherDocs.map (stripDocPair (all_policies t)) }

/-- File name of a unit file with the given stem. -/
def filenameOf (s : String) : String := s ++ ".xml"

/-- `[p.stem for p in sorted((cleaned_proxy_dir / 'policies').glob('*.xml'))]`:
the stems ordered by their file paths, i.e. by file name. -/
def policyItems (stems : List String) : List String :=
  List.insertionSort (fun a b => strLeR (filenameOf a) (filenameOf b)) stems

/-- The fixed resource-type subdirectories scanned by `_sync_manifest`, in
source order. -/
def resTypes : List String := ["jsc", "java", "py", "xsl", "wsdl", "properties"]

/-- The `type://name` entries contributed by one resource-type directory:
nothing when the directory does not exist, otherwise the `*.*` files sorted by
name and prefixed with the type. -/
def resItemsFor (res : List (String × List String)) (ty : String) : List String :=
  match res.lookup ty with
  | none => []
  | some files =>
    (List.insertionSort strLeR (files.filter (fun n => n.toList.contains '.'))).map
      (fun n => ty ++ "://" ++ n)

/-- The `Resources` items of `_sync_manifest`: the per-type entries for each
recognized type, concatenated in the fixed order of `resTypes`. -/
def resourceItems (res : List (String × List String)) : List String :=
  resTypes.foldr (fun ty acc => resItemsFor res ty ++ acc) []

/-- Replace the contents of a section element: all prior children are
discarded and one child per item is appended, in input order, with the item
tag and text. -/
def setSection (itemTag : String) (items : List String) (sec : XmlElem) : XmlElem :=
  .mk sec.tag sec.attrs sec.text (items.map (fun s => .mk itemTag [] (some s) []))

/-- Replace the first child carrying the given tag. -/
def replaceFirstTag (tag : String) (f : XmlElem → XmlElem) :
    List XmlElem → List XmlElem
| [] => []
| c :: cs => if c.tag == tag then f c :: cs else c :: replaceFirstTag tag f cs

/-- `_update_manifest_section`: locate (`root.find`) or create
(`ET.SubElement`) the section element, drop its children, and append one item
element per input value. -/
def update_manifest_section (root : XmlElem) (sectionTag itemTag : String)
    (items : List String) : XmlElem :=
  match root.findChild sectionTag with
  | none =>
    .mk root.tag root.attrs root.text
      (root.children ++ [setSection itemTag items (.mk sectionTag [] none [])])
  | some _ =>
    .mk root.tag root.attrs root.text
      (replaceFirstTag sectionTag (setSection itemTag items) root.children)

/-- Per-manifest action of `_sync_manifest`: sync the `Policies` section, then
the `Resources` section. -/
def sync_manifest (policyList resourceList : List String) (root : XmlElem) : XmlElem :=
  update_manifest_section
    (update_manifest_section root "Policies" "Policy" policyList)
    "Resources" "Resource" resourceList

/-- The manifest-resynchronization phase: every root-level `*.xml` document of
the copy that parses is rewritten with freshly computed section listings; an
unparsable one is skipped (`except Exception: pass`). -/
def syncPhase (t : BundleTree) : BundleTree :=
  { t with
    rootDocs := t.rootDocs.map (fun p =>
      (p.1, p.2.map (sync_manifest (policyItems (all_policies t)) (resourceItems t.resources)))) }

/-- `clean_and_save`: copy the bundle (the identity on the embedded tree),
remove each unattached unit and its resource file in sorted order, strip
orphaned steps, and resynchronize the manifests.  A `ValueError` escaping the
removal loop aborts the whole cleaning operation. -/
def clean_and_save (b : BundleTree) : Except String BundleTree :=
  ((unattached_policies b).foldlM processUnit b).map
    (fun t => syncPhase (stripPhase t))

/-- Observation of a section's item texts: the children texts of the first
child with the section tag. -/
def sectionItems (root : XmlElem) (tag : String) : Option (List (Option String)) :=
  (root.findChild tag).map (fun s => s.children.map XmlElem.text)

/-- Check of one stripped document against the no-dangling-reference
invariant, over proper descendants of the root. -/
def docNoDangling (r : List String) (root : XmlElem) : Bool :=
  (descendants root).all (fun d => !(removable r d))

/-- Same check including the document root itself, as the spec's
universally-quantified invariant reads. -/
def docNoDanglingAll (r : List String) (root : XmlElem) : Bool :=
  (allElems root).all (fun d => !(removable r d))

/-- Check of a whole bundle tree: no document holds a `Step` descendant whose
truthy stripped name falls outside the declared-unit stems. -/
def allDocsOf (b : BundleTree) : List (String × Option XmlElem) :=
  b.policies ++ b.proxyEndpoints ++ b.targetEndpoints ++ b.rootDocs ++ b.otherDocs

/-- Decidable form of the no-dangling-input condition used for the
idempotence theorem. -/
def treeNoDangling (b : BundleTree) : Bool :=
  (allDocsOf b).all (fun p =>
    match p.2 with
    | none => true
    | some root => docNoDangling (all_policies b) root)

/-! Concrete bundles and documents used to witness and refute the claims. -/

/-- A `Step` element invoking the named unit, with no condition. -/
def mkStep (n : String) : XmlElem :=
  .mk "Step" [] none [.mk "Name" [] (some n) []]

/-- A `Step` element invoking the named unit under a guard condition. -/
def mkStepCond (n c : String) : XmlElem :=
  .mk "Step" [] none [.mk "Name" [] (some n) [], .mk "Condition" [] (some c) []]

/-- A JavaScript policy document without resource link. -/
def jsDoc : XmlElem := .mk "Javascript" [] none []

/-- A non-scripting policy document. -/
def quotaDoc : XmlElem := .mk "Quota" [] none []

/-- The empty bundle, basis of the concrete examples. -/
def emptyBundle : BundleTree :=
  { policies := [], proxyEndpoints := [], targetEndpoints := [], rootDocs := [],
    otherDocs := [], resources := [] }

/-- Endpoint document with one `PreFlow/Request` path holding the given steps. -/
def epDocWith (steps : List XmlElem) : XmlElem :=
  .mk "ProxyEndpoint" [] none
    [.mk "PreFlow" [] none [.mk "Request" [] none steps]]

/-- Bundle for the sequence-detector example `[A(js,no-cond), B(js,no-cond),
C(other)]`. -/
def seqBundle : BundleTree :=
  { emptyBundle with
    policies := [("A", some jsDoc), ("B", some jsDoc), ("C", some quotaDoc)]
    proxyEndpoints :=
      [("default.xml", some (epDocWith [mkStep "A", mkStep "B", mkStep "C"]))] }

/-- Bundle whose single, unattached unit declares a malformed resource link
(no `://`). -/
def badLinkBundle : BundleTree :=
  { emptyBundle with
    policies :=
      [("P", some (.mk "Javascript" [] none [.mk "ResourceURL" [] (some "badlink") []]))] }

/-- Bundle whose single endpoint step has a whitespace-only name. -/
def blankNameBundle : BundleTree :=
  { emptyBundle with
    proxyEndpoints := [("ep.xml", some (.mk "ProxyEndpoint" [] none [mkStep " "]))] }

/-- A parsable document whose root element is itself a `Step` with a dangling
name. -/
def rootStepDoc : XmlElem := .mk "Step" [] none [.mk "Name" [] (some "B") []]

/-- Bundle with zero unattached units but a dangling step reference `B` in its
endpoint document. -/
def danglingRefBundle : BundleTree :=
  { emptyBundle with
    policies := [("A", some (.mk "AssignMessage" [] none []))]
    proxyEndpoints :=
      [("default.xml", some (.mk "ProxyEndpoint" [] none [mkStep "A", mkStep "B"]))] }

/-- Already-clean bundle: one unit, referenced, no manifests. -/
def cleanBundle : BundleTree :=
  { emptyBundle with
    policies := [("A", some (.mk "AssignMessage" [] none []))]
    proxyEndpoints := [("default.xml", some (.mk "ProxyEndpoint" [] none [mkStep "A"]))] }

/-- Bundle with one parsable and one unparsable unit file. -/
def parseFailBundle : BundleTree :=
  { emptyBundle with policies := [("good", some jsDoc), ("bad", none)] }

/-- A proxy-side endpoint document referencing nothing. -/
def epA : String × Option XmlElem := ("p.xml", some (epDocWith []))

/-- A target-side endpoint document referencing unit `A`. -/
def epB : String × Option XmlElem :=
  ("t.xml", some (.mk "TargetEndpoint" [] none [mkStep "A"]))

/-- Bundle with one endpoint document on each side; unit `B` is unattached. -/
def twoEpBundle : BundleTree :=
  { emptyBundle with
    policies := [("A", some jsDoc), ("B", some quotaDoc)]
    proxyEndpoints := [epA]
    targetEndpoints := [epB] }

/-- Bundle with one bare root-level manifest document. -/
def manifestBundle : BundleTree :=
  { emptyBundle with rootDocs := [("m.xml", some (.mk "APIProxy" [] none []))] }

/-- Resource listing with one `jsc` and one `java` file. -/
def twoTypeRes : List (String × List String) := [("jsc", ["a.js"]), ("java", ["b.jar"])]

/-- A bare manifest root. -/
def bareManifest : XmlElem := .mk "APIProxy" [] none []

/-- A name-less `Step` containing a nested dangling `Step`. -/
def nestedNamelessStep : XmlElem := .mk "Step" [] none [mkStep "X"]

/-- A path document holding the nested name-less step. -/
def nestedStepPath : XmlElem := .mk "Request" [] none [nestedNamelessStep]

/-- A childless `Step` without a `Name` child. -/
def namelessStep : XmlElem := .mk "Step" [] none []

/-- A path document holding a single childless name-less step. -/
def bareNamelessPath : XmlElem := .mk "Request" [] none [namelessStep]

/-- Bundle with zero unattached units whose tree also holds a document whose
root element is itself a dangling `Step`. -/
def rootStepBundle : BundleTree :=
  { emptyBundle with
    policies := [("A", some (.mk "AssignMessage" [] none []))]
    proxyEndpoints := [("default.xml", some (.mk "ProxyEndpoint" [] none [mkStep "A"]))]
    otherDocs := [("weird.xml", some rootStepDoc)] }

/-- Observation of the other-document no-dangling check, root included, after
cleaning. -/
def obsDangling (t : BundleTree) : List (Option Bool) :=
  t.otherDocs.map (fun p => p.2.map (docNoDanglingAll (all_policies t)))

/-- Number of `Step` elements below the roots of the proxy endpoint documents;
used to observe step removals. -/
def obsSteps (t : BundleTree) : List (Option Nat) :=
  t.proxyEndpoints.map (fun p => p.2.map (fun root => (findallDesc root "Step").length))

/-- The condition under which the removal loop raises at a unit: its document
declares a truthy resource link that does not split into two parts. -/
def badLinkAt (t : BundleTree) (v : String) : Prop :=
  ∃ u, resource_url t v = some u ∧ u ≠ "" ∧ (splitUrl u).length ≠ 2

/-! Basic lemmas about the XML embedding. -/

/-- Induction over an element and all its children. -/
theorem XmlElem.indOn {P : XmlElem → Prop}
    (h : ∀ t a x cs, (∀ c ∈ cs, P c) → P (.mk t a x cs)) : ∀ e, P e
| .mk t a x cs => h t a x cs (fun c hc => XmlElem.indOn h c)
termination_by e => sizeOf e
decreasing_by
  have h1 := List.sizeOf_lt_of_mem hc
  simp only [XmlElem.mk.sizeOf_spec]
  omega

theorem mem_descList {d : XmlElem} {cs : List XmlElem} :
    d ∈ descList cs ↔ ∃ c ∈ cs, d = c ∨ d ∈ descendants c := by
  induction cs with
  | nil => simp [descList]
  | cons c cs ih =>
    simp only [descList, List.mem_cons, List.mem_append, ih]
    constructor
    · rintro (h | h | ⟨c2, hc2, h⟩)
      · exact ⟨c, Or.inl rfl, Or.inl h⟩
      · exact ⟨c, Or.inl rfl, Or.inr h⟩
      · exact ⟨c2, Or.inr hc2, h⟩
    · rintro ⟨c2, hc2 | hc2, h⟩
      · cases hc2
        rcases h with h | h
        · exact Or.inl h
        · exact Or.inr (Or.inl h)
      · exact Or.inr (Or.inr ⟨c2, hc2, h⟩)

theorem mem_descendants {d t a x} {cs : List XmlElem} :
    d ∈ descendants (.mk t a x cs) ↔ ∃ c ∈ cs, d = c ∨ d ∈ descendants c :=
  mem_descList

theorem strip_tag (r : List String) (e : XmlElem) : (stripElem r e).tag = e.tag := by
  cases e; rfl

theorem strip_attrs (r : List String) (e : XmlElem) : (stripElem r e).attrs = e.attrs := by
  cases e; rfl

theorem strip_text (r : List String) (e : XmlElem) : (stripElem r e).text = e.text := by
  cases e; rfl

theorem strip_children (r : List String) (t a x) (cs : List XmlElem) :
    stripElem r (.mk t a x cs) = .mk t a x (stripList r cs) := rfl

theorem find_stripList (r : List String) (s : String) (hs : s ≠ "Step") :
    ∀ cs : List XmlElem,
      (stripList r cs).find? (fun c => c.tag == s) =
        (cs.find? (fun c => c.tag == s)).map (stripElem r) := by
  intro cs
  induction cs with
  | nil => rfl
  | cons c cs ih =>
    by_cases hrem : removable r c = true
    · have htag : c.tag = "Step" := by
        have := hrem
        unfold removable at this
        exact eq_of_beq (Bool.and_eq_true .. ▸ this).1
      have hhead : (c.tag == s) = false := by
        rw [htag]
        exact beq_eq_false_iff_ne .. |>.mpr (fun h => hs h.symm)
      simp only [stripList, hrem, if_true, List.find?, hhead, ih]
    · rw [Bool.not_eq_true] at hrem
      simp only [stripList, hrem, Bool.false_eq_true, if_false]
      simp only [List.find?, strip_tag]
      cases hhead : (c.tag == s) with
      | true => rfl
      | false => exact ih

theorem nameTextOf_strip (r : List String) (e : XmlElem) :
    nameTextOf (stripElem r e) = nameTextOf e := by
  cases e with
  | mk t a x cs =>
    show ((stripList r cs).find? _).bind XmlElem.text = (cs.find? _).bind XmlElem.text
    rw [find_stripList r "Name" (by decide) cs]
    cases cs.find? (fun c => c.tag == "Name") with
    | none => rfl
    | some c => simp [strip_text]

theorem removable_strip (r : List String) (e : XmlElem) :
    removable r (stripElem r e) = removable r e := by
  unfold removable
  rw [strip_tag, nameTextOf_strip]

theorem descList_strip_ok (r : List String) :
    ∀ cs : List XmlElem,
      (∀ c ∈ cs, ∀ d ∈ descendants (stripElem r c), removable r d = false) →
      ∀ d ∈ descList (stripList r cs), removable r d = false := by
  intro cs
  induction cs with
  | nil => intro _ d hd; simp [stripList, descList] at hd
  | cons c cs ih =>
    intro H d hd
    by_cases hrem : removable r c = true
    · simp only [stripList, hrem, if_true] at hd
      exact ih (fun c2 hc2 => H c2 (List.mem_cons_of_mem _ hc2)) d hd
    · rw [Bool.not_eq_true] at hrem
      simp only [stripList, hrem, Bool.false_eq_true, if_false] at hd
      simp only [descList, List.mem_cons, List.mem_append] at hd
      rcases hd with hd | hd | hd
      · rw [hd, removable_strip]; exact hrem
      · exact H c (List.mem_cons_self ..) d hd
      · exact ih (fun c2 hc2 => H c2 (List.mem_cons_of_mem _ hc2)) d hd

/-- After stripping, no proper descendant of the document root is a removable
step any more. -/
theorem strip_no_dangling (r : List String) (e : XmlElem) :
    ∀ d ∈ descendants (stripElem r e), removable r d = false := by
  induction e using XmlElem.indOn with
  | h t a x cs ih =>
    intro d hd
    rw [strip_children] at hd
    exact descList_strip_ok r cs ih d hd

theorem stripList_id (r : List String) :
    ∀ cs : List XmlElem,
      (∀ c ∈ cs, stripElem r c = c) → (∀ c ∈ cs, removable r c = false) →
      stripList r cs = cs := by
  intro cs
  induction cs with
  | nil => intro _ _; rfl
  | cons c cs ih =>
    intro h1 h2
    have hrem := h2 c (List.mem_cons_self ..)
    simp only [stripList, hrem, Bool.false_eq_true, if_false]
    rw [h1 c (List.mem_cons_self ..),
      ih (fun c2 hc2 => h1 c2 (List.mem_cons_of_mem _ hc2))
        (fun c2 hc2 => h2 c2 (List.mem_cons_of_mem _ hc2))]

/-- A document with no removable descendant is left unchanged by the
step-stripping pass. -/
theorem strip_id (r : List String) (e : XmlElem)
    (h : ∀ d ∈ descendants e, removable r d = false) : stripElem r e = e := by
  induction e using XmlElem.indOn with
  | h t a x cs ih =>
    rw [strip_children]
    rw [stripList_id r cs
      (fun c hc => ih c hc (fun d hd =>
        h d (mem_descendants.mpr ⟨c, hc, Or.inr hd⟩)))
      (fun c hc => h c (mem_descendants.mpr ⟨c, hc, Or.inl rfl⟩))]

/-! Lemmas about the string order and the reference graph. -/

theorem strLeR_iff_le {a b : String} : strLeR a b ↔ a ≤ b := by
  rw [strLeR, strLeb, decide_eq_true_eq, String.le_iff_toList_le]

instance : IsTotal String strLeR :=
  ⟨fun a b => by
    rw [strLeR_iff_le, strLeR_iff_le]
    exact le_total a b⟩

instance : IsTrans String strLeR :=
  ⟨fun a b c hab hbc => by
    rw [strLeR_iff_le] at hab hbc ⊢
    exact le_trans hab hbc⟩

theorem mem_referenced_from {x : String} {docs : List (String × Option XmlElem)} :
    x ∈ referenced_from docs ↔ ∃ p ∈ docs, x ∈ docRefs p.2 := by
  induction docs with
  | nil => simp [referenced_from]
  | cons p docs ih =>
    show x ∈ docRefs p.2 ++ referenced_from docs ↔ _
    rw [List.mem_append, ih]
    constructor
    · rintro (h | ⟨q, hq, h⟩)
      · exact ⟨p, List.mem_cons_self .., h⟩
      · exact ⟨q, List.mem_cons_of_mem _ hq, h⟩
    · rintro ⟨q, hq, h⟩
      rcases List.mem_cons.mp hq with hq | hq
      · exact Or.inl (hq ▸ h)
      · exact Or.inr ⟨q, hq, h⟩

theorem mem_unattached_from {x : String} {stems : List String}
    {docs : List (String × Option XmlElem)} :
    x ∈ unattached_from stems docs ↔ x ∈ stems ∧ x ∉ referenced_from docs := by
  rw [unattached_from, List.mem_insertionSort, List.mem_filter, List.mem_dedup,
    decide_eq_true_eq]

theorem referenced_from_perm {l1 l2 : List (String × Option XmlElem)}
    (h : l1.Perm l2) (x : String) :
    x ∈ referenced_from l1 ↔ x ∈ referenced_from l2 := by
  rw [mem_referenced_from, mem_referenced_from]
  constructor
  · rintro ⟨p, hp, hx⟩; exact ⟨p, h.mem_iff.mp hp, hx⟩
  · rintro ⟨p, hp, hx⟩; exact ⟨p, h.mem_iff.mpr hp, hx⟩

theorem unattached_from_perm {stems : List String}
    {l1 l2 : List (String × Option XmlElem)} (h : l1.Perm l2) :
    unattached_from stems l1 = unattached_from stems l2 := by
  rw [unattached_from, unattached_from]
  congr 1
  apply List.filter_congr
  intro s _
  simp only [decide_eq_decide]
  rw [not_iff_not]
  exact referenced_from_perm h s

/-- C1: for every bundle, the unattached-unit list is exactly the set
difference of declared unit stems minus referenced step names, sorted by
name, and it is invariant under any permutation of the endpoint-document
traversal order. -/
theorem c1_unattached_sorted_set_difference (b : BundleTree) :
    (∀ x, x ∈ unattached_policies b ↔
      x ∈ all_policies b ∧ x ∉ referenced_policies b) ∧
    List.Sorted (· ≤ ·) (unattached_policies b) ∧
    (∀ l : List (String × Option XmlElem),
      l.Perm (b.proxyEndpoints ++ b.targetEndpoints) →
      unattached_from (all_policies b) l = unattached_policies b) := by
  refine ⟨fun x => mem_unattached_from, ?_, fun l h => unattached_from_perm h⟩
  exact (List.sorted_insertionSort strLeR _).imp (fun h => strLeR_iff_le.mp h)

/-- Witness for C1 at a bundle with two endpoint documents, traversed in the
swapped order. -/
theorem c1_unattached_sorted_set_difference_witness :
    unattached_from (all_policies twoEpBundle) [epB, epA] =
      unattached_policies twoEpBundle :=
  (c1_unattached_sorted_set_difference twoEpBundle).2.2 [epB, epA]
    (List.Perm.swap epA epB [])

/-- C2: in the sequence detector, a step extends the current run exactly when
its trimmed name is non-empty, that trimmed name is among the scripting-kind
units, and the step has no `Condition` child (the first condition being
subsumed by the second when the empty string is no unit name); an invalid step
emits the pending run exactly when it has length at least two (`1 <
seq.length`) and resets it, discarding the breaking step; the pending run is
flushed the same way at path end; and the three concrete scenarios behave as
stated: `[A(js), B(js), C(other)]` yields exactly `[A, B]`, while
`[A(js), B(js, cond)]` and `[A(js)]` yield nothing. -/
theorem c2_sequence_detector :
    (∀ (js : List String) (step : XmlElem), "" ∉ js →
      (is_valid_step js step = true ↔
        stepSeqName step ≠ "" ∧ stepSeqName step ∈ js ∧
          step.findChild "Condition" = none)) ∧
    (∀ js f l (s : XmlElem) rest seq, is_valid_step js s = false →
      walkSteps js f l (s :: rest) seq =
        (if 1 < seq.length then [⟨f, l, seq⟩] else []) ++ walkSteps js f l rest []) ∧
    (∀ js f l (s : XmlElem) rest seq, is_valid_step js s = true →
      walkSteps js f l (s :: rest) seq =
        walkSteps js f l rest (seq ++ [stepSeqName s])) ∧
    (∀ js f l (seq : List String), walkSteps js f l [] seq =
      if 1 < seq.length then [⟨f, l, seq⟩] else []) ∧
    find_sequential_js_steps seqBundle =
      [{ file := "default.xml", location := "PreFlow/Request", sequence := ["A", "B"] }] ∧
    walkSteps ["A", "B"] "f" "l" [mkStep "A", mkStepCond "B" "x"] [] = [] ∧
    walkSteps ["A", "B"] "f" "l" [mkStep "A"] [] = [] := by
  refine ⟨?_, ?_, ?_, fun js f l seq => rfl, rfl, rfl, rfl⟩
  · intro js step hjs
    unfold is_valid_step stepSeqName
    cases hn : nameTextOf step with
    | none =>
      simp only [Option.getD_none]
      constructor
      · intro h; exact absurd h (by simp)
      · rintro ⟨h0, _, _⟩; exact absurd rfl h0
    | some t =>
      simp only [Option.getD_some]
      rw [Bool.and_eq_true, Bool.and_eq_true, decide_eq_true_eq,
        Option.isNone_iff_eq_none]
      constructor
      · rintro ⟨⟨_, hmem⟩, hcond⟩
        exact ⟨fun h0 => hjs (h0 ▸ hmem), hmem, hcond⟩
      · rintro ⟨h0, hmem, hcond⟩
        refine ⟨⟨?_, hmem⟩, hcond⟩
        rw [Bool.not_eq_true', beq_eq_false_iff_ne]
        intro h; exact h0 (by rw [h]; rfl)
  · intro js f l s rest seq h
    simp [walkSteps, h, flushSeq]
  · intro js f l s rest seq h
    simp [walkSteps, h]

/-- Witness for C2: the validity equivalence and the run-breaking equation at
concrete steps. -/
theorem c2_sequence_detector_witness :
    is_valid_step ["A", "B"] (mkStep "A") = true ∧
    walkSteps ["A", "B"] "f" "l" [mkStepCond "B" "x"] ["A"] =
      (if 1 < (["A"] : List String).length then
        [{ file := "f", location := "l", sequence := ["A"] }] else []) ++
        walkSteps ["A", "B"] "f" "l" [] [] :=
  ⟨(c2_sequence_detector.1 ["A", "B"] (mkStep "A") (by decide)).mpr
      ⟨by decide, by decide, rfl⟩,
    c2_sequence_detector.2.1 ["A", "B"] "f" "l" (mkStepCond "B" "x") [] ["A"] rfl⟩

/-! Lemmas about the unattached-removal loop of the cleaner. -/

/-- Deleting the file of one stem does not change the lookup of another. -/
theorem lookup_filter_ne {v u : String} (h : (u == v) = false) :
    ∀ l : List (String × Option XmlElem),
      (l.filter (fun p => !(p.1 == v))).lookup u = l.lookup u := by
  intro l
  induction l with
  | nil => rfl
  | cons p l ih =>
    obtain ⟨k, w⟩ := p
    by_cases hv : (k == v) = true
    · have hk : k = v := eq_of_beq hv
      have hu : (u == k) = false := hk ▸ h
      simp only [List.filter, hv, Bool.not_true, List.lookup, hu, ih]
    · rw [Bool.not_eq_true] at hv
      simp only [List.filter, hv, Bool.not_false, List.lookup]
      cases hu : (u == k) with
      | true => rfl
      | false => exact ih

/-- `resource_url` only looks at the `policies` listing. -/
theorem resource_url_congr {t t' : BundleTree} {u : String}
    (h : t'.policies.lookup u = t.policies.lookup u) :
    resource_url t' u = resource_url t u := by
  unfold resource_url
  rw [h]

/-- Every successful branch of `processUnit` just deletes the stem's file from
the `policies` listing. -/
theorem processUnit_ok_policies {t t' : BundleTree} {v : String}
    (h : processUnit t v = Except.ok t') :
    t'.policies = t.policies.filter (fun p => !(p.1 == v)) := by
  unfold processUnit at h
  split at h
  · cases h; rfl
  · split at h
    · cases h; rfl
    · split at h
      · cases h; rfl
      · exact Except.noConfusion h

/-- A truthy resource link that does not split into exactly two parts makes
`processUnit` raise, as the tuple unpacking of `split('://')` does. -/
theorem processUnit_error_of_bad {t : BundleTree} {v u : String}
    (hu : resource_url t v = some u) (hne : u ≠ "")
    (hsp : (splitUrl u).length ≠ 2) : processUnit t v = Except.error u := by
  have hne2 : (u == "") = false := beq_eq_false_iff_ne .. |>.mpr hne
  rcases hl : splitUrl u with _ | ⟨a, _ | ⟨c, _ | ⟨d, l⟩⟩⟩
  · simp [processUnit, hu, hne2, hl]
  · simp [processUnit, hu, hne2, hl]
  · exact absurd (by rw [hl]; rfl) hsp
  · simp [processUnit, hu, hne2, hl]

theorem foldlM_error_of_bad :
    ∀ (l : List String) (t : BundleTree) (u : String), u ∈ l → badLinkAt t u →
      ∃ e, l.foldlM processUnit t = Except.error e := by
  intro l
  induction l with
  | nil => intro t u h; exact absurd h (List.not_mem_nil u)
  | cons v rest ih =>
    intro t u hm hbad
    cases hres : processUnit t v with
    | error e => exact ⟨e, by simp only [List.foldlM, hres]; rfl⟩
    | ok t' =>
      by_cases hv : v = u
      · subst hv
        obtain ⟨u2, hru, hne, hsp⟩ := hbad
        rw [processUnit_error_of_bad hru hne hsp] at hres
        cases hres
      · have hm2 : u ∈ rest := by
          rcases List.mem_cons.mp hm with h | h
          · exact absurd h.symm hv
          · exact h
        have hlook : t'.policies.lookup u = t.policies.lookup u := by
          rw [processUnit_ok_policies hres]
          exact lookup_filter_ne (beq_eq_false_iff_ne .. |>.mpr (fun h2 => hv h2.symm)) _
        obtain ⟨u2, hru, hne, hsp⟩ := hbad
        obtain ⟨e, he⟩ :=
          ih t' u hm2 ⟨u2, (resource_url_congr hlook).trans hru, hne, hsp⟩
        exact ⟨e, by simp only [List.foldlM, hres]; exact he⟩

/-- C3 counterexample: at a bundle whose single unattached unit declares the
malformed resource link `"badlink"`, the cleaning operation does not skip the
resource-deletion step and continue — it aborts with the `ValueError` raised
by the failing two-part unpacking of `split('://')`, refuting the claim that a
malformed link is never a fatal error for the cleaning operation. -/
theorem c3_counterexample :
    clean_and_save badLinkBundle = Except.error "badlink" := rfl

/-- C3 amended: when any unattached unit's document declares a truthy resource
link that does not split into exactly two parts around `://`, the cleaning
operation for that bundle aborts with an error instead of treating the link as
absent. -/
theorem c3_malformed_link_aborts (b : BundleTree) (v : String)
    (hm : v ∈ unattached_policies b) (hbad : badLinkAt b v) :
    ∃ e, clean_and_save b = Except.error e := by
  obtain ⟨e, he⟩ := foldlM_error_of_bad (unattached_policies b) b v hm hbad
  refine ⟨e, ?_⟩
  unfold clean_and_save
  rw [he]
  rfl

/-- Witness for C3 at the concrete malformed-link bundle. -/
theorem c3_malformed_link_aborts_witness :
    ∃ e, clean_and_save badLinkBundle = Except.error e :=
  c3_malformed_link_aborts badLinkBundle "P" (by decide)
    ⟨"badlink", rfl, by decide, by decide⟩

/-- C5 counterexample: a bundle whose tree holds a parsable document whose
root element is itself a `Step` with the dangling name `B`.  After the whole
cleaning pipeline the document still contains a `Step` element (its root)
whose name is not among the surviving units, refuting the claim that no
dangling reference remains in any parsing document: `root.findall('.//Step/..')`
never reaches the document root itself. -/
theorem c5_counterexample :
    (clean_and_save rootStepBundle).map obsDangling = Except.ok [some false] := rfl

/-- C5 amended: after the step-stripping phase, every `Step` element strictly
below a document's root that carries a truthy name refers to a surviving
unit; only a root element that is itself a `Step` can keep a dangling name. -/
theorem c5_no_dangling_below_root (r : List String) (e : XmlElem) :
    docNoDangling r (stripElem r e) = true := by
  unfold docNoDangling
  rw [List.all_eq_true]
  intro d hd
  rw [Bool.not_eq_true']
  exact strip_no_dangling r e d hd

/-! Lemmas for the idempotence of the cleaner on an already-clean bundle. -/

theorem map_self_of {α : Type} {f : α → α} :
    ∀ {l : List α}, (∀ x ∈ l, f x = x) → l.map f = l := by
  intro l
  induction l with
  | nil => intro _; rfl
  | cons x l ih =>
    intro h
    rw [List.map_cons, h x (List.mem_cons_self ..),
      ih (fun y hy => h y (List.mem_cons_of_mem _ hy))]

theorem treeNoDangling_spec {b : BundleTree} (h : treeNoDangling b = true) :
    ∀ p ∈ allDocsOf b, ∀ root, p.2 = some root →
      ∀ d ∈ descendants root, removable (all_policies b) d = false := by
  unfold treeNoDangling at h
  rw [List.all_eq_true] at h
  intro p hp root hroot d hd
  have h2 := h p hp
  rw [hroot] at h2
  unfold docNoDangling at h2
  rw [List.all_eq_true] at h2
  have h3 := h2 d hd
  rwa [Bool.not_eq_true'] at h3

theorem stripDocPair_id {b : BundleTree} (h : treeNoDangling b = true) :
    ∀ p ∈ allDocsOf b, stripDocPair (all_policies b) p = p := by
  intro p hp
  obtain ⟨n, d⟩ := p
  cases d with
  | none => rfl
  | some root =>
    have := strip_id (all_policies b) root
      (treeNoDangling_spec h (n, some root) hp root rfl)
    simp [stripDocPair, this]

theorem stripPhase_id {b : BundleTree} (h : treeNoDangling b = true) :
    stripPhase b = b := by
  have h1 : b.policies.map (stripDocPair (all_policies b)) = b.policies :=
    map_self_of (fun p hp => stripDocPair_id h p (by simp [allDocsOf, hp]))
  have h2 : b.proxyEndpoints.map (stripDocPair (all_policies b)) = b.proxyEndpoints :=
    map_self_of (fun p hp => stripDocPair_id h p (by simp [allDocsOf, hp]))
  have h3 : b.targetEndpoints.map (stripDocPair (all_policies b)) = b.targetEndpoints :=
    map_self_of (fun p hp => stripDocPair_id h p (by simp [allDocsOf, hp]))
  have h4 : b.rootDocs.map (stripDocPair (all_policies b)) = b.rootDocs :=
    map_self_of (fun p hp => stripDocPair_id h p (by simp [allDocsOf, hp]))
  have h5 : b.otherDocs.map (stripDocPair (all_policies b)) = b.otherDocs :=
    map_self_of (fun p hp => stripDocPair_id h p (by simp [allDocsOf, hp]))
  unfold stripPhase
  rw [h1, h2, h3, h4, h5]

theorem syncPhase_id {b : BundleTree}
    (h : ∀ p ∈ b.rootDocs,
      Option.map (sync_manifest (policyItems (all_policies b)) (resourceItems b.resources)) p.2
        = p.2) :
    syncPhase b = b := by
  unfold syncPhase
  have hmap : b.rootDocs.map (fun p =>
      (p.1, p.2.map (sync_manifest (policyItems (all_policies b)) (resourceItems b.resources))))
        = b.rootDocs := by
    apply map_self_of
    intro p hp
    obtain ⟨n, d⟩ := p
    exact congrArg (Prod.mk n) (h (n, d) hp)
  rw [hmap]

/-- C7 counterexample: a bundle with zero unattached units whose endpoint
document nevertheless references the undeclared unit `B`.  The cleaner removes
that step, so it performs a step removal and changes a non-manifest document,
refuting the claim as stated. -/
theorem c7_counterexample :
    unattached_policies danglingRefBundle = [] ∧
    obsSteps danglingRefBundle = [some 2] ∧
    (clean_and_save danglingRefBundle).map obsSteps = Except.ok [some 1] :=
  ⟨rfl, rfl, rfl⟩

/-- C7 amended: on a bundle with zero unattached units in which every step
reference below any document root names a declared unit, the cleaner performs
no step removal and returns the bundle with only the root-level documents
resynchronized; when those are moreover already synchronized, the cleaned
document set is the input itself. -/
theorem c7_clean_idempotent (b : BundleTree)
    (h1 : unattached_policies b = []) (h2 : treeNoDangling b = true) :
    clean_and_save b = Except.ok (syncPhase b) ∧
    (syncPhase b).policies = b.policies ∧
    (syncPhase b).proxyEndpoints = b.proxyEndpoints ∧
    (syncPhase b).targetEndpoints = b.targetEndpoints ∧
    (syncPhase b).otherDocs = b.otherDocs ∧
    (syncPhase b).resources = b.resources ∧
    (syncPhase b).rootDocs = b.rootDocs.map (fun p =>
      (p.1, p.2.map (sync_manifest (policyItems (all_policies b)) (resourceItems b.resources)))) ∧
    ((∀ p ∈ b.rootDocs,
        Option.map (sync_manifest (policyItems (all_policies b)) (resourceItems b.resources)) p.2
          = p.2) →
      clean_and_save b = Except.ok b) := by
  have hclean : clean_and_save b = Except.ok (syncPhase b) := by
    unfold clean_and_save
    rw [h1]
    show Except.ok (syncPhase (stripPhase b)) = _
    rw [stripPhase_id h2]
  refine ⟨hclean, rfl, rfl, rfl, rfl, rfl, rfl, fun h3 => ?_⟩
  rw [hclean, syncPhase_id h3]

/-- Witness for C7 at a concrete already-clean bundle without manifests. -/
theorem c7_clean_idempotent_witness :
    clean_and_save cleanBundle = Except.ok cleanBundle :=
  (c7_clean_idempotent cleanBundle rfl rfl).2.2.2.2.2.2.2
    (fun p hp => absurd hp (List.not_mem_nil p))

/-! Lemmas about manifest-section synchronization. -/

theorem setSection_tag (i : String) (items : List String) (sec : XmlElem) :
    (setSection i items sec).tag = sec.tag := by
  cases sec; rfl

theorem setSection_children (i : String) (items : List String) (sec : XmlElem) :
    (setSection i items sec).children = items.map (fun v => .mk i [] (some v) []) := by
  cases sec; rfl

theorem tags_replaceFirstTag (s : String) (f : XmlElem → XmlElem)
    (hf : ∀ c, (f c).tag = c.tag) :
    ∀ cs : List XmlElem,
      (replaceFirstTag s f cs).map XmlElem.tag = cs.map XmlElem.tag := by
  intro cs
  induction cs with
  | nil => rfl
  | cons c cs ih =>
    unfold replaceFirstTag
    by_cases h : (c.tag == s) = true
    · rw [if_pos h]
      simp [hf]
    · rw [Bool.not_eq_true] at h
      rw [h]
      simp only [Bool.false_eq_true, if_false, List.map_cons, ih]

theorem find_replaceFirstTag_self (s : String) (f : XmlElem → XmlElem)
    (hf : ∀ c, (f c).tag = c.tag) :
    ∀ (cs : List XmlElem) (c : XmlElem),
      cs.find? (fun x => x.tag == s) = some c →
      (replaceFirstTag s f cs).find? (fun x => x.tag == s) = some (f c) := by
  intro cs
  induction cs with
  | nil => intro c h; cases h
  | cons x cs ih =>
    intro c h
    by_cases hx : (x.tag == s) = true
    · rw [@List.find?_cons_of_pos _ (fun y => y.tag == s) x cs hx] at h
      cases h
      unfold replaceFirstTag
      rw [if_pos hx]
      exact @List.find?_cons_of_pos _ (fun y => y.tag == s) (f x) cs
        (by show ((f x).tag == s) = true; rw [hf]; exact hx)
    · rw [Bool.not_eq_true] at hx
      rw [@List.find?_cons_of_neg _ (fun y => y.tag == s) x cs (by simp [hx])] at h
      unfold replaceFirstTag
      rw [hx]
      simp only [Bool.false_eq_true, if_false]
      rw [@List.find?_cons_of_neg _ (fun y => y.tag == s) x
        (replaceFirstTag s f cs) (by simp [hx])]
      exact ih c h

theorem find_replaceFirstTag_other (s1 s2 : String) (hne : (s2 == s1) = false)
    (f : XmlElem → XmlElem) (hf : ∀ c, (f c).tag = c.tag) :
    ∀ cs : List XmlElem,
      (replaceFirstTag s2 f cs).find? (fun x => x.tag == s1) =
        cs.find? (fun x => x.tag == s1) := by
  intro cs
  induction cs with
  | nil => rfl
  | cons x cs ih =>
    unfold replaceFirstTag
    by_cases hx : (x.tag == s2) = true
    · rw [if_pos hx]
      have hxs : x.tag = s2 := eq_of_beq hx
      rw [@List.find?_cons_of_neg _ (fun y => y.tag == s1) (f x) cs
          (by simp [hf, hxs, hne]),
        @List.find?_cons_of_neg _ (fun y => y.tag == s1) x cs (by simp [hxs, hne])]
    · rw [Bool.not_eq_true] at hx
      rw [hx]
      simp only [Bool.false_eq_true, if_false]
      cases hx1 : (x.tag == s1) with
      | true =>
        rw [@List.find?_cons_of_pos _ (fun y => y.tag == s1) x
            (replaceFirstTag s2 f cs) hx1,
          @List.find?_cons_of_pos _ (fun y => y.tag == s1) x cs hx1]
      | false =>
        rw [@List.find?_cons_of_neg _ (fun y => y.tag == s1) x
            (replaceFirstTag s2 f cs) (by simp [hx1]),
          @List.find?_cons_of_neg _ (fun y => y.tag == s1) x cs (by simp [hx1])]
        exact ih

theorem sectionItems_update_self (root : XmlElem) (s i : String) (items : List String) :
    sectionItems (update_manifest_section root s i items) s = some (items.map some) := by
  unfold update_manifest_section
  cases hf : root.findChild s with
  | none =>
    have hf2 : root.children.find? (fun x => x.tag == s) = none := hf
    show (((root.children ++
        [setSection i items (.mk s [] none [])]).find? (fun x => x.tag == s)).map
          (fun q => q.children.map XmlElem.text)) = some (items.map some)
    rw [List.find?_append, hf2]
    rw [@List.find?_cons_of_pos _ (fun x => x.tag == s)
      (setSection i items (.mk s [] none [])) []
      (by show ((setSection i items (XmlElem.mk s [] none [])).tag == s) = true
          rw [setSection_tag]; exact beq_self_eq_true s)]
    show some ((setSection i items (.mk s [] none [])).children.map XmlElem.text) = _
    rw [setSection_children, List.map_map]
    rfl
  | some c =>
    have hf2 : root.children.find? (fun x => x.tag == s) = some c := hf
    show (((replaceFirstTag s (setSection i items) root.children).find?
        (fun x => x.tag == s)).map (fun q => q.children.map XmlElem.text)) = some (items.map some)
    rw [find_replaceFirstTag_self s _ (fun c2 => setSection_tag i items c2) _ c hf2]
    show some ((setSection i items c).children.map XmlElem.text) = _
    rw [setSection_children, List.map_map]
    rfl

theorem sectionItems_update_other (root : XmlElem) (s1 s2 i : String)
    (items : List String) (hne : (s2 == s1) = false) :
    sectionItems (update_manifest_section root s2 i items) s1 =
      sectionItems root s1 := by
  unfold update_manifest_section
  cases hf : root.findChild s2 with
  | none =>
    show (((root.children ++
        [setSection i items (.mk s2 [] none [])]).find? (fun x => x.tag == s1)).map
          (fun q => q.children.map XmlElem.text)) = _
    rw [List.find?_append]
    rw [@List.find?_cons_of_neg _ (fun x => x.tag == s1)
        (setSection i items (.mk s2 [] none [])) []
        (by show ¬((setSection i items (XmlElem.mk s2 [] none [])).tag == s1) = true
            rw [setSection_tag]; simp [XmlElem.tag, hne]),
      List.find?_nil, Option.or_none]
    rfl
  | some c =>
    show (((replaceFirstTag s2 (setSection i items) root.children).find?
        (fun x => x.tag == s1)).map (fun q => q.children.map XmlElem.text)) = _
    rw [find_replaceFirstTag_other s1 s2 hne _ (fun c2 => setSection_tag i items c2)]
    rfl

theorem mem_tags_update_self (root : XmlElem) (s i : String) (items : List String) :
    s ∈ (update_manifest_section root s i items).children.map XmlElem.tag := by
  unfold update_manifest_section
  cases hf : root.findChild s with
  | none =>
    show s ∈ (root.children ++ [setSection i items (.mk s [] none [])]).map XmlElem.tag
    rw [List.map_append]
    apply List.mem_append_right
    exact List.Mem.head _
  | some c =>
    have hf2 : root.children.find? (fun x => x.tag == s) = some c := hf
    show s ∈ (replaceFirstTag s (setSection i items) root.children).map XmlElem.tag
    rw [tags_replaceFirstTag s _ (fun c2 => setSection_tag i items c2)]
    have hcs : (c.tag == s) = true :=
      @List.find?_some _ (fun x => x.tag == s) c root.children hf2
    exact List.mem_map.mpr
      ⟨c, @List.mem_of_find?_eq_some _ (fun x => x.tag == s) c root.children hf2,
        eq_of_beq hcs⟩

theorem mem_tags_update_keep {root : XmlElem} {s : String} (s2 i : String)
    (items : List String) (h : s ∈ root.children.map XmlElem.tag) :
    s ∈ (update_manifest_section root s2 i items).children.map XmlElem.tag := by
  unfold update_manifest_section
  cases hf : root.findChild s2 with
  | none =>
    show s ∈ (root.children ++ [setSection i items (.mk s2 [] none [])]).map XmlElem.tag
    rw [List.map_append]
    exact List.mem_append_left _ h
  | some c =>
    show s ∈ (replaceFirstTag s2 (setSection i items) root.children).map XmlElem.tag
    rw [tags_replaceFirstTag s2 _ (fun c2 => setSection_tag i items c2)]
    exact h

theorem mem_resItemsFor {res : List (String × List String)} {ty x : String} :
    x ∈ resItemsFor res ty ↔
      ∃ files, res.lookup ty = some files ∧
        ∃ n ∈ files, n.toList.contains '.' = true ∧ x = ty ++ "://" ++ n := by
  unfold resItemsFor
  cases hl : res.lookup ty with
  | none => simp
  | some files =>
    simp only [List.mem_map, List.mem_insertionSort, List.mem_filter]
    constructor
    · rintro ⟨n, ⟨hn, hdot⟩, rfl⟩
      exact ⟨files, rfl, n, hn, hdot, rfl⟩
    · rintro ⟨files2, hf2, n, hn, hdot, rfl⟩
      cases hf2
      exact ⟨n, ⟨hn, hdot⟩, rfl⟩

theorem mem_resFold {res : List (String × List String)} :
    ∀ (tys : List String) (x : String),
      x ∈ tys.foldr (fun ty acc => resItemsFor res ty ++ acc) [] ↔
        ∃ ty ∈ tys, x ∈ resItemsFor res ty := by
  intro tys
  induction tys with
  | nil => simp
  | cons ty tys ih =>
    intro x
    show x ∈ resItemsFor res ty ++ tys.foldr _ [] ↔ _
    rw [List.mem_append, ih]
    constructor
    · rintro (h | ⟨ty2, hty2, h⟩)
      · exact ⟨ty, List.mem_cons_self .., h⟩
      · exact ⟨ty2, List.mem_cons_of_mem _ hty2, h⟩
    · rintro ⟨ty2, hty2, h⟩
      rcases List.mem_cons.mp hty2 with hty2 | hty2
      · exact Or.inl (hty2 ▸ h)
      · exact Or.inr ⟨ty2, hty2, h⟩

theorem policyItems_sorted (stems : List String) :
    List.Sorted (fun a b => filenameOf a ≤ filenameOf b) (policyItems stems) := by
  haveI hTot : IsTotal String (fun a b => strLeR (filenameOf a) (filenameOf b)) :=
    ⟨fun a b => @IsTotal.total String strLeR _ (filenameOf a) (filenameOf b)⟩
  haveI hTr : IsTrans String (fun a b => strLeR (filenameOf a) (filenameOf b)) :=
    ⟨fun a b c hab hbc => @IsTrans.trans String strLeR _ _ _ _ hab hbc⟩
  have h : List.Sorted (fun a b => strLeR (filenameOf a) (filenameOf b)) (policyItems stems) :=
    List.sorted_insertionSort _ stems
  exact h.imp (fun hab => strLeR_iff_le.mp hab)

/-- C6 counterexample: with one `jsc` and one `java` resource file, the
resynchronized `Resources` section lists `jsc://a.js` before `java://b.jar`
although `java://b.jar` sorts strictly first — the resource listing follows
the fixed type order `jsc, java, py, xsl, wsdl, properties` of the source, not
name order, refuting the claim that the section is sorted by name. -/
theorem c6_counterexample :
    sectionItems (sync_manifest (policyItems []) (resourceItems twoTypeRes) bareManifest)
        "Resources" = some [some "jsc://a.js", some "java://b.jar"] ∧
      ¬ (("jsc://a.js" : String) ≤ "java://b.jar") :=
  ⟨rfl, by rw [String.le_iff_toList_le]; decide⟩

/-- C6 amended: after resynchronization the `Policies` section holds exactly
the unit stems present on disk, ordered by file name, and the `Resources`
section holds exactly the `type://name` entries of the listed resource files,
grouped in the fixed type order `jsc, java, py, xsl, wsdl, properties` and
sorted by file name within each type. -/
theorem c6_manifest_section_content (stems : List String)
    (res : List (String × List String)) (root : XmlElem) :
    sectionItems (sync_manifest (policyItems stems) (resourceItems res) root) "Policies"
      = some ((policyItems stems).map some) ∧
    sectionItems (sync_manifest (policyItems stems) (resourceItems res) root) "Resources"
      = some ((resourceItems res).map some) ∧
    List.Perm (policyItems stems) stems ∧
    List.Sorted (fun a b => filenameOf a ≤ filenameOf b) (policyItems stems) ∧
    (∀ x, x ∈ resourceItems res ↔
      ∃ ty ∈ resTypes, ∃ files, res.lookup ty = some files ∧
        ∃ n ∈ files, n.toList.contains '.' = true ∧ x = ty ++ "://" ++ n) ∧
    (∀ ty files, res.lookup ty = some files →
      List.Sorted (· ≤ ·)
        (List.insertionSort strLeR (files.filter (fun n => n.toList.contains '.')))) := by
  refine ⟨?_, ?_, List.perm_insertionSort _ stems, policyItems_sorted stems, ?_, ?_⟩
  · unfold sync_manifest
    rw [sectionItems_update_other _ "Policies" "Resources" "Resource" _ (by decide)]
    exact sectionItems_update_self root "Policies" "Policy" (policyItems stems)
  · unfold sync_manifest
    exact sectionItems_update_self _ "Resources" "Resource" (resourceItems res)
  · intro x
    show x ∈ resTypes.foldr (fun ty acc => resItemsFor res ty ++ acc) [] ↔ _
    rw [mem_resFold]
    constructor
    · rintro ⟨ty, hty, h⟩
      obtain ⟨files, hf, n, hn, hdot, rfl⟩ := mem_resItemsFor.mp h
      exact ⟨ty, hty, files, hf, n, hn, hdot, rfl⟩
    · rintro ⟨ty, hty, files, hf, n, hn, hdot, rfl⟩
      exact ⟨ty, hty, mem_resItemsFor.mpr ⟨files, hf, n, hn, hdot, rfl⟩⟩
  · intro ty files _
    exact (List.sorted_insertionSort strLeR _).imp (fun hab => strLeR_iff_le.mp hab)

/-- Witness for C6: the within-type sortedness conjunct at the concrete
two-type resource listing. -/
theorem c6_manifest_section_content_witness :
    List.Sorted (· ≤ ·)
      (List.insertionSort strLeR
        ((["a.js"] : List String).filter (fun n => n.toList.contains '.'))) :=
  (c6_manifest_section_content [] twoTypeRes bareManifest).2.2.2.2.2 "jsc" ["a.js"] rfl

/-- C9: the cleaned tree's root-level documents all carry a `Policies` and a
`Resources` child section after cleaning — `_sync_manifest` rewrites every
root-level `*.xml` document, manifest or not, and `_update_manifest_section`
creates each section when it is absent. -/
theorem c9_root_docs_gain_sections (b t : BundleTree)
    (hclean : clean_and_save b = Except.ok t) :
    (∀ (pl rl : List String) (root : XmlElem),
      "Policies" ∈ (sync_manifest pl rl root).children.map XmlElem.tag ∧
      "Resources" ∈ (sync_manifest pl rl root).children.map XmlElem.tag) ∧
    ∀ p ∈ t.rootDocs, ∀ root, p.2 = some root →
      "Policies" ∈ root.children.map XmlElem.tag ∧
      "Resources" ∈ root.children.map XmlElem.tag := by
  have hsec : ∀ (pl rl : List String) (root : XmlElem),
      "Policies" ∈ (sync_manifest pl rl root).children.map XmlElem.tag ∧
      "Resources" ∈ (sync_manifest pl rl root).children.map XmlElem.tag := by
    intro pl rl root
    constructor
    · exact mem_tags_update_keep "Resources" "Resource" rl
        (mem_tags_update_self root "Policies" "Policy" pl)
    · exact mem_tags_update_self _ "Resources" "Resource" rl
  refine ⟨hsec, ?_⟩
  unfold clean_and_save at hclean
  cases hF : (unattached_policies b).foldlM processUnit b with
  | error e =>
    rw [hF] at hclean
    exact absurd hclean (by simp [Except.map])
  | ok t2 =>
    rw [hF] at hclean
    have ht : syncPhase (stripPhase t2) = t := by
      have h2 : Except.ok (syncPhase (stripPhase t2)) = Except.ok t := hclean
      injection h2
    subst ht
    intro p hp root hroot
    simp only [syncPhase, List.mem_map] at hp
    obtain ⟨q, _, rfl⟩ := hp
    cases hq : q.2 with
    | none => rw [hq] at hroot; cases hroot
    | some d =>
      rw [hq] at hroot
      have hr : sync_manifest (policyItems (all_policies (stripPhase t2)))
          (resourceItems (stripPhase t2).resources) d = root := by
        injection hroot
      subst hr
      exact hsec _ _ d

/-- Witness for C9 at the concrete one-manifest bundle. -/
theorem c9_root_docs_gain_sections_witness :
    "Policies" ∈
      (sync_manifest (policyItems []) (resourceItems []) bareManifest).children.map
        XmlElem.tag ∧
    "Resources" ∈
      (sync_manifest (policyItems []) (resourceItems []) bareManifest).children.map
        XmlElem.tag :=
  (c9_root_docs_gain_sections manifestBundle _ rfl).1 (policyItems []) (resourceItems [])
    bareManifest

/-! Lemmas for the referenced-name characterization. -/

theorem stepRefName_eq_some {s : XmlElem} {x : String} :
    stepRefName s = some x ↔ ∃ t, nameTextOf s = some t ∧ t ≠ "" ∧ x = pyStrip t := by
  unfold stepRefName
  cases hn : nameTextOf s with
  | none =>
    constructor
    · intro h; cases h
    · rintro ⟨t, ht, _, _⟩; cases ht
  | some t =>
    show (if (t == "") = true then none else some (pyStrip t)) = some x ↔
      ∃ t2, some t = some t2 ∧ t2 ≠ "" ∧ x = pyStrip t2
    by_cases ht : (t == "") = true
    · rw [if_pos ht]
      have ht2 : t = "" := eq_of_beq ht
      subst ht2
      constructor
      · intro h; cases h
      · rintro ⟨t2, h1, h2, _⟩
        injection h1 with h1
        exact absurd h1.symm h2
    · rw [Bool.not_eq_true] at ht
      rw [ht]
      simp only [Bool.false_eq_true, if_false]
      have htne : t ≠ "" := by
        intro h
        subst h
        simp at ht
      constructor
      · intro h
        injection h with h
        exact ⟨t, rfl, htne, h.symm⟩
      · rintro ⟨t2, h1, _, rfl⟩
        injection h1 with h1
        rw [h1]

theorem mem_docRefs {d : Option XmlElem} {x : String} :
    x ∈ docRefs d ↔ ∃ root, d = some root ∧
      ∃ s ∈ findallDesc root "Step", stepRefName s = some x := by
  cases d with
  | none => simp [docRefs]
  | some root =>
    simp only [docRefs, List.mem_filterMap]
    constructor
    · rintro ⟨s, hs, h⟩
      exact ⟨root, rfl, s, hs, h⟩
    · rintro ⟨root2, h2, s, hs, h⟩
      cases h2
      exact ⟨s, hs, h⟩

/-- C4 counterexample: the endpoint step whose `Name` text is the
whitespace-only string `" "` is not ignored — its trimmed value, the empty
string, is collected into the referenced set, refuting the claim that names
which are empty after trimming contribute nothing. -/
theorem c4_counterexample : referenced_policies blankNameBundle = [""] := rfl

/-- C4 amended: `referenced_policies` collects, over every document of both
endpoint directories, the trimmed `Name` text of every `Step` descendant
whose raw name text is present and non-empty — a whitespace-only name is
collected as the empty string rather than ignored; missing or empty names and
unparsable documents contribute nothing. -/
theorem c4_referenced_collection (b : BundleTree) (x : String) :
    x ∈ referenced_policies b ↔
      ∃ p ∈ b.proxyEndpoints ++ b.targetEndpoints, ∃ root, p.2 = some root ∧
        ∃ s ∈ findallDesc root "Step", ∃ t, nameTextOf s = some t ∧ t ≠ "" ∧
          x = pyStrip t := by
  unfold referenced_policies
  rw [mem_referenced_from]
  constructor
  · rintro ⟨p, hp, hx⟩
    obtain ⟨root, hroot, st, hst, hsr⟩ := mem_docRefs.mp hx
    obtain ⟨t, ht, htne, rfl⟩ := stepRefName_eq_some.mp hsr
    exact ⟨p, hp, root, hroot, st, hst, t, ht, htne, rfl⟩
  · rintro ⟨p, hp, root, hroot, st, hst, t, ht, htne, rfl⟩
    exact ⟨p, hp,
      mem_docRefs.mpr ⟨root, hroot, st, hst, stepRefName_eq_some.mpr ⟨t, ht, htne, rfl⟩⟩⟩

/-! Lemmas about unit lookup under unique stems. -/

theorem lookup_of_mem_nodup :
    ∀ {l : List (String × Option XmlElem)} {s : String} {v : Option XmlElem},
      (l.map Prod.fst).Nodup → (s, v) ∈ l → l.lookup s = some v := by
  intro l
  induction l with
  | nil => intro s v _ h; cases h
  | cons p l ih =>
    intro s v hnd hmem
    obtain ⟨k, w⟩ := p
    rw [List.map_cons, List.nodup_cons] at hnd
    rcases List.mem_cons.mp hmem with h | h
    · cases h
      show List.lookup s ((s, v) :: l) = some v
      simp [List.lookup]
    · have hk : (s == k) = false := by
        rw [beq_eq_false_iff_ne]
        intro he
        apply hnd.1
        rw [← he]
        exact List.mem_map.mpr ⟨(s, v), h, rfl⟩
      show List.lookup s ((k, w) :: l) = some v
      simp only [List.lookup, hk]
      exact ih hnd.2 h

/-- C8: a unit whose file fails to parse is still declared (counted by
filename), its kind is undeterminable, and it is never classified as a
scripting-kind unit; the parse failure is non-fatal throughout. -/
theorem c8_unparsable_unit (b : BundleTree) (s : String)
    (hmem : (s, (none : Option XmlElem)) ∈ b.policies)
    (hnd : (b.policies.map Prod.fst).Nodup) :
    s ∈ all_policies b ∧ unit_kind b s = none ∧ s ∉ javascript_policies b := by
  have hlook : b.policies.lookup s = some none := lookup_of_mem_nodup hnd hmem
  refine ⟨List.mem_map_of_mem Prod.fst hmem, ?_, ?_⟩
  · unfold unit_kind
    rw [hlook]
  · intro hjs
    unfold javascript_policies at hjs
    obtain ⟨p, hp, hps⟩ := List.mem_filterMap.mp hjs
    obtain ⟨k, d⟩ := p
    cases d with
    | none => exact Option.noConfusion (show (none : Option String) = some s from hps)
    | some root =>
      have hps2 : (if (pyLower root.tag == "javascript") = true then some k else none)
          = some s := hps
      by_cases hj : (pyLower root.tag == "javascript") = true
      · rw [if_pos hj] at hps2
        injection hps2 with hk
        have hlook2 := lookup_of_mem_nodup hnd hp
        rw [hk, hlook] at hlook2
        injection hlook2 with hlook3
        cases hlook3
      · rw [if_neg hj] at hps2
        cases hps2

/-- Witness for C8 at the bundle with one parsable and one unparsable unit. -/
theorem c8_unparsable_unit_witness :
    "bad" ∈ all_policies parseFailBundle ∧ unit_kind parseFailBundle "bad" = none ∧
      "bad" ∉ javascript_policies parseFailBundle :=
  c8_unparsable_unit parseFailBundle "bad" (List.Mem.tail _ (List.Mem.head _)) (by decide)

/-! Lemmas for survival of name-less steps. -/

theorem removable_of_nameless (r : List String) {c : XmlElem}
    (h : nameTextOf c = none ∨ nameTextOf c = some "") : removable r c = false := by
  unfold removable
  rcases h with h | h <;> rw [h] <;> simp

theorem stripList_keeps {r : List String} {c : XmlElem} :
    ∀ {cs : List XmlElem}, c ∈ cs → removable r c = false →
      stripElem r c ∈ stripList r cs := by
  intro cs
  induction cs with
  | nil => intro h; cases h
  | cons x cs ih =>
    intro hmem hrem
    rcases List.mem_cons.mp hmem with h | h
    · subst h
      simp only [stripList, hrem, Bool.false_eq_true, if_false]
      exact List.mem_cons_self ..
    · by_cases hx : removable r x = true
      · simp only [stripList, hx, if_true]
        exact ih h hrem
      · rw [Bool.not_eq_true] at hx
        simp only [stripList, hx, Bool.false_eq_true, if_false]
        exact List.mem_cons_of_mem _ (ih h hrem)

/-- C10 counterexample: a name-less `Step` holding a nested dangling `Step`
does survive the stripping phase, but not unchanged — its nested `Step` child
is removed, refuting "such name-less Steps survive cleaning unchanged". -/
theorem c10_counterexample :
    (stripElem ["A"] nestedStepPath).children.map XmlElem.tag = ["Step"] ∧
    (stripElem ["A"] nestedStepPath).children.map (fun c => c.children.length) = [0] ∧
    nestedStepPath.children.map (fun c => c.children.length) = [1] :=
  ⟨rfl, rfl, rfl⟩

/-- C10 amended: the stripping phase never removes a `Step` child whose `Name`
child is missing or whose `Name` text is empty; such a step survives with its
tag, attributes, text and name unchanged, and it survives entirely unchanged
whenever no removable step is nested inside it. -/
theorem c10_nameless_steps_survive (r : List String) (e c : XmlElem)
    (hc : c ∈ e.children) (_hstep : c.tag = "Step")
    (hname : nameTextOf c = none ∨ nameTextOf c = some "") :
    stripElem r c ∈ (stripElem r e).children ∧
    (stripElem r c).tag = c.tag ∧ (stripElem r c).attrs = c.attrs ∧
    (stripElem r c).text = c.text ∧ nameTextOf (stripElem r c) = nameTextOf c ∧
    ((∀ d ∈ descendants c, removable r d = false) → stripElem r c = c) := by
  have hrem := removable_of_nameless r hname
  refine ⟨?_, strip_tag r c, strip_attrs r c, strip_text r c,
    nameTextOf_strip r c, strip_id r c⟩
  cases e with
  | mk t a x cs =>
    rw [strip_children]
    exact stripList_keeps hc hrem

/-- Witness for C10 at the path holding one childless name-less step. -/
theorem c10_nameless_steps_survive_witness :
    stripElem [] namelessStep ∈ (stripElem [] bareNamelessPath).children ∧
    (stripElem [] namelessStep).tag = namelessStep.tag ∧
    (stripElem [] namelessStep).attrs = namelessStep.attrs ∧
    (stripElem [] namelessStep).text = namelessStep.text ∧
    nameTextOf (stripElem [] namelessStep) = nameTextOf namelessStep ∧
    ((∀ d ∈ descendants namelessStep, removable [] d = false) →
      stripElem [] namelessStep = namelessStep) :=
  c10_nameless_steps_survive [] bareNamelessPath namelessStep (List.Mem.head _) rfl
    (Or.inl rfl)

end ReviewOptimize
